import Mathlib

/-!
Verification development for the job-application agent (`src/agent-4.py`).

The Python source is shallowly embedded below.  Text is modelled as
`String`/`List Char`; Python's `str` helpers (`split`, `strip`, `lower`,
`startswith`, `in`) are reimplemented as executable Lean functions with the
ASCII semantics the agent relies on.  Stateful pieces (the LLM call, the
Gmail service, the file system, Python's set-iteration order) are passed in
explicitly as parameters.
-/

namespace Agent

/-- ASCII whitespace, as recognised by Python's `str.strip`/`str.split`
(space, tab, newline, carriage return, vertical tab, form feed). -/
def isSpc (c : Char) : Bool :=
  c = ' ' || c = '\t' || c = '\n' || c = '\r' || c = Char.ofNat 11 || c = Char.ofNat 12

/-- Python `str.lower` restricted to ASCII letters (the only case the agent
exercises): uppercase `A`-`Z` shift by 32, everything else is unchanged. -/
def lowerC (c : Char) : Char :=
  if 'A' ≤ c && c ≤ 'Z' then Char.ofNat (c.toNat + 32) else c

/-- Python `str.strip()` on a character list: drop ASCII whitespace from
both ends. -/
def stripL (l : List Char) : List Char :=
  ((l.dropWhile isSpc).reverse.dropWhile isSpc).reverse

/-- Python `str.strip(ch)` for a single character: drop every copy of `ch`
from both ends. -/
def stripCharL (ch : Char) (l : List Char) : List Char :=
  ((l.dropWhile (fun c => c = ch)).reverse.dropWhile (fun c => c = ch)).reverse

/-- Python `text.split('\n')`: split at every newline, keeping empty pieces
(`"".split('\n') == [""]`). -/
def splitLinesL : List Char → List (List Char)
  | [] => [[]]
  | c :: rest =>
    if c = '\n' then [] :: splitLinesL rest
    else
      match splitLinesL rest with
      | [] => [[c]]
      | p :: ps => (c :: p) :: ps

/-- Python `sep.join(pieces)`. -/
def joinWith (sep : List Char) : List (List Char) → List Char
  | [] => []
  | [x] => x
  | x :: y :: xs => x ++ sep ++ joinWith sep (y :: xs)

/-- Python's `needle in hay` substring test. -/
def substrB (needle : List Char) : List Char → Bool
  | [] => needle.isEmpty
  | c :: t => needle.isPrefixOf (c :: t) || substrB needle t

/-- Worker for `pySplitWs`: `cur` holds the characters of the word being
read, in reverse. -/
def pySplitGo : List Char → List Char → List (List Char)
  | cur, [] => if cur.isEmpty then [] else [cur.reverse]
  | cur, c :: rest =>
    if isSpc c then
      if cur.isEmpty then pySplitGo [] rest else cur.reverse :: pySplitGo [] rest
    else pySplitGo (c :: cur) rest

/-- Python `str.split()` (no argument): split on runs of whitespace,
discarding empty pieces. -/
def pySplitWs (l : List Char) : List (List Char) :=
  pySplitGo [] l

/-! ## Session history (`add_to_session_history`, lines 27-40) -/

/-- One entry of `st.session_state.activity_history`: the caller-supplied
dict payload plus the `timestamp` key the function writes before inserting. -/
structure HistoryEntry where
  fields : List (String × String)
  timestamp : String
deriving DecidableEq

/-- Embedding of `add_to_session_history`: stamp the new entry, insert it at
index 0 (most recent first), and truncate the list to its first 10 entries
when it exceeds 10. -/
def add_to_session_history (history : List HistoryEntry)
    (payload : List (String × String)) (now : String) : List HistoryEntry :=
  let withTs : List HistoryEntry := { fields := payload, timestamp := now } :: history
  if withTs.length > 10 then withTs.take 10 else withTs

/-! ## Fallback analysis (`_basic_text_analysis`, lines 215-249) and
`analyze_job_match` (lines 160-213)

`job_words = set(self.job_description.lower().split())` builds a Python
set; its mathematical content (membership, cardinality) is modelled with
`List.dedup`, while its process-specific iteration order — which the list
comprehension over `job_words` observes — is passed in explicitly as the
`enum` parameter (within one interpreter process two constructions of the
set from the same text iterate identically). -/

/-- ASCII letter test (the `str.isalpha` cases the agent's inputs use). -/
def isAlphaAscii (c : Char) : Bool :=
  ('A' ≤ c && c ≤ 'Z') || ('a' ≤ c && c ≤ 'z')

/-- `self.job_description.lower().split()`: lower-cased whitespace tokens of
a text, duplicates kept. -/
def tokensOf (s : String) : List (List Char) :=
  pySplitWs (s.data.map lowerC)

/-- `⌊log₂ n⌋` with explicit fuel, so the kernel can evaluate it (`0` for
`n = 0`; any fuel of at least the recursion depth gives the same value). -/
def log2p : ℕ → ℕ → ℕ
  | 0, _ => 0
  | f + 1, n => if 2 ≤ n then log2p f (n / 2) + 1 else 0

/-- `⌊log₂ n⌋` (`n` itself bounds the recursion depth). -/
def log2N (n : ℕ) : ℕ := log2p n n

/-- Round the fraction `N/D` (`D > 0`) to the nearest integer, ties to
even — the rounding step of IEEE-754 round-to-nearest-even. -/
def rne (N D : ℕ) : ℕ :=
  let q := N / D
  let r := N % D
  if 2 * r < D then q
  else if D < 2 * r then q + 1
  else if q % 2 = 0 then q else q + 1

/-- IEEE-754 binary64 round-to-nearest-even of the non-negative fraction
`N/D` (`D > 0`), returned as a dyadic pair `(M, K)` whose value is
`M / 2^K`: the unit in the last place is `2^(⌊log₂(N/D)⌋ - 52)` in the
normal range and `2^(-1074)` below it, and the scaled significand is
rounded with ties to even.  (Overflow is irrelevant here: the agent only
ever rounds values in `[0, 100]`.) -/
def floatOfRat (N D : ℕ) : ℕ × ℕ :=
  if N = 0 then (0, 0)
  else if N * 2 ^ 1022 < D then (rne (N * 2 ^ 1074) D, 1074)
  else
    let e : ℤ := Int.ofNat (log2N (N * 2 ^ 1100 / D)) - 1100
    let t : ℤ := e - 52
    if t ≤ 0 then (rne (N * 2 ^ (-t).toNat) D, (-t).toNat)
    else (rne N (D * 2 ^ t.toNat) * 2 ^ t.toNat, 0)

/-- Python's `int((c / j) * 100)` for non-negative integers `c`, `j > 0`,
with CPython's semantics: `c / j` is the correctly rounded binary64
quotient, `* 100` a binary64 multiplication (the exact product rounded
again), and `int(·)` truncation (floor, on these non-negative values).
Because of the double rounding this can differ from the exact
`⌊100·c/j⌋` — e.g. `29/50` gives `57`, not `58`. -/
def intOfRatioTimes100 (c j : ℕ) : ℕ :=
  let x := floatOfRat c j
  let y := floatOfRat (x.1 * 100) (2 ^ x.2)
  y.1 / 2 ^ y.2

/-- `match_percentage` of `_basic_text_analysis` (line 223):
`min(100, int((len(common_words) / len(job_words)) * 100)) if job_words else 0`,
with the float expression modelled by `intOfRatioTimes100`, the IEEE-754
double-precision evaluation CPython performs. -/
def match_percentage (resume job : String) : Nat :=
  let jw := (tokensOf job).dedup
  let rws := tokensOf resume
  if jw.isEmpty then 0
  else min 100 (intOfRatioTimes100 (jw.filter (fun w => rws.contains w)).length jw.length)

/-- `important_words = [word for word in job_words if len(word) > 4 and word.isalpha()]`
(line 226), iterating the job-word set in the process's order `enum`. -/
def important_words (enum : List (List Char)) : List (List Char) :=
  enum.filter (fun w => decide (w.length > 4) && w.all isAlphaAscii)

/-- `missing_words = [word for word in important_words[:20] if word not in resume_words]`
(line 227). -/
def missing_words (resume : String) (enum : List (List Char)) : List (List Char) :=
  ((important_words enum).take 20).filter (fun w => !(tokensOf resume).contains w)

/-- The fixed skeleton of the fallback's f-string (lines 229-244), around the
two interpolated values. -/
def basicSeg1 : String :=
  "\n            BASIC TEXT ANALYSIS (LLM analysis failed):\n            \n            MATCH PERCENTAGE: Approximately "

/-- Second fixed segment of the fallback's f-string. -/
def basicSeg2 : String :=
  "%\n            \n            MISSING KEYWORDS: "

/-- Trailing fixed segment of the fallback's f-string. -/
def basicSeg3 : String :=
  "\n            \n            IMPROVEMENT SUGGESTIONS:\n            - Consider adding more keywords from the job description\n            - Review the job requirements and highlight matching experience\n            - Customize your resume to better align with this specific role\n            \n            OVERALL ASSESSMENT: Basic text comparison completed. For detailed analysis, please ensure the job description is clear and try again.\n            \n            Note: This is a simplified analysis due to technical limitations. For best results, ensure both resume and job description are clearly formatted.\n            "

/-- `', '.join(missing_words[:10]) if missing_words else 'None identified'`. -/
def missingDisplay (resume : String) (enum : List (List Char)) : String :=
  let mw := missing_words resume enum
  if mw.isEmpty then "None identified"
  else String.mk (joinWith (',' :: ' ' :: []) (mw.take 10))

/-- Embedding of `_basic_text_analysis` (lines 215-249): the deterministic
fallback report.  `enum` is the process's iteration order of the
`job_words` set.  (The `except` arm of the source is unreachable here: the
modelled body is total.) -/
def basic_text_analysis (resume job : String) (enum : List (List Char)) : String :=
  basicSeg1 ++ toString (match_percentage resume job) ++ basicSeg2 ++
    missingDisplay resume enum ++ basicSeg3

/-- Embedding of `analyze_job_match` (lines 160-213).  `gen` is the outcome
of `llm.invoke(analysis_prompt).content`: `some text` when generation
succeeds, `none` when it raises.  Returns the Python `(success, payload)`
pair. -/
def analyze_job_match (resume job : String) (gen : Option String)
    (enum : List (List Char)) : Bool × String :=
  if resume = "" || job = "" then
    (false, "Resume or job description not available")
  else
    match gen with
    | some t =>
      if t.length < 100 then
        (false, "Analysis response was too short. Please try again.")
      else (true, t)
    | none => (true, basic_text_analysis resume job enum)

/-- Distinct lower-cased whitespace tokens of the job text, as a finite set
(the mathematical content of Python's `set(...)`). -/
def jobWordsF (job : String) : Finset (List Char) := (tokensOf job).toFinset

/-- Distinct lower-cased whitespace tokens of the resume text, as a finite
set. -/
def resumeWordsF (resume : String) : Finset (List Char) := (tokensOf resume).toFinset

/-! ## Subject/body parser (`generate_professional_email`, lines 303-337)

The parsing block of `generate_professional_email` (the spec's
`parseEmail(rawText, fallbackName)`): it receives the raw generated text and
the extracted candidate name and produces the `{subject, body}` pair. -/

/-- The literal `'subject:'` that `line.lower().startswith('subject:')`
tests. -/
def subjLit : List Char := "subject:".data

/-- `line.split(':', 1)[1]`: the text after the first colon (empty when no
colon follows). -/
def afterFirstColon (l : List Char) : List Char :=
  (l.dropWhile (fun c => !(c = ':'))).drop 1

/-- The scan of lines 310-318: find the first line whose lower-casing starts
with `subject:`, returning it together with the lines after it. -/
def findSubjLine : List (List Char) → Option (List Char × List (List Char))
  | [] => none
  | l :: rest =>
    if subjLit.isPrefixOf (l.map lowerC) then some (l, rest)
    else findSubjLine rest

/-- The inner loop of lines 314-317: `lines[j:]` for the first `j` past the
subject line with `lines[j].strip()` truthy, `[]` when every later line is
blank. -/
def firstNonBlankSuffix : List (List Char) → List (List Char)
  | [] => []
  | l :: rest => if (stripL l).isEmpty then firstNonBlankSuffix rest else l :: rest

/-- The four keywords of line 323, tried in the source's order. -/
def hasKeyword (l : List Char) : Bool :=
  let low := l.map lowerC
  substrB "application".data low || substrB "position".data low ||
    substrB "role".data low || substrB "job".data low

/-- The loop of lines 322-325: first of the first three lines containing a
keyword. -/
def scanKeyword : List (List Char) → Option (List Char)
  | [] => none
  | l :: rest => if hasKeyword l then some l else scanKeyword rest

/-- Line 337: `subject.strip('"').strip("'").strip()`. -/
def cleanSubject (l : List Char) : List Char :=
  stripL (stripCharL (Char.ofNat 39) (stripCharL '"' l))

/-- Lines 321-331 (branches 2 and 3): keyword heuristic over the first three
lines, else the `Job Application - {candidate_name}` default; either way the
body is rebuilt from all lines. -/
def fallbackParse (lines : List (List Char)) (name : List Char) :
    List Char × List Char :=
  let s2 := match scanKeyword (lines.take 3) with
    | some l => stripL l
    | none => []
  let subject := if s2.isEmpty then "Job Application - ".data ++ name else s2
  (cleanSubject subject, stripL (joinWith ['\n'] lines))

/-- Embedding of the parsing block, lines 304-337 (the spec's `parseEmail`):
split the raw text into lines; if some line starts (case-insensitively) with
`subject:` and the text after its first colon strips to something non-empty,
that is the subject and the body starts at the first non-blank later line;
otherwise the keyword heuristic or the default subject applies and the body
is the whole text.  Both results get the final strip of lines 334/337. -/
def parseEmailL (raw : List Char) (name : List Char) : List Char × List Char :=
  let lines := splitLinesL raw
  match findSubjLine lines with
  | some (line, after) =>
    let subj := stripL (afterFirstColon line)
    if subj.isEmpty then fallbackParse lines name
    else (cleanSubject subj, stripL (joinWith ['\n'] (firstNonBlankSuffix after)))
  | none => fallbackParse lines name

/-- `parseEmailL` on `String`s. -/
def parseEmail (raw name : String) : String × String :=
  (String.mk (parseEmailL raw.data name.data).1, String.mk (parseEmailL raw.data name.data).2)

/-! ## Business-letter formatter (`_format_business_letter`, lines 367-384,
and `_format_text_paragraphs`, lines 386-406)

The two `re.sub` calls are embedded as explicit string functions with the
greedy/backtracking semantics of their patterns. -/

/-- Lines 372-373: `re.sub(r'\r\n', '\n', ·)` then `re.sub(r'\r', '\n', ·)`;
the sequential left-to-right passes collapse to one scan that turns each
`\r\n` pair and each remaining `\r` into `\n`. -/
def normalizeBreaks : List Char → List Char
  | [] => []
  | c :: rest =>
    if c = '\r' then
      match rest with
      | [] => ['\n']
      | d :: rest2 =>
        if d = '\n' then '\n' :: normalizeBreaks rest2
        else '\n' :: normalizeBreaks (d :: rest2)
    else c :: normalizeBreaks rest

/-- The literal `Dear ` opening the greeting pattern of line 376. -/
def dearLit : List Char := "Dear ".data

/-- `[^,\n]` of the greeting pattern. -/
def notNameEnd (c : Char) : Bool := !(c = ',' || c = '\n')

/-- Whether `re.sub(r'^(Dear [^,\n]+)[,]?\s*\n?', ...)` (line 376) matches:
the text starts with `Dear ` followed by at least one character that is
neither comma nor newline. -/
def greetMatch (l : List Char) : Bool :=
  dearLit.isPrefixOf l && !((l.drop 5).takeWhile notNameEnd).isEmpty

/-- Line 376: rewrite a leading `Dear <name>` greeting to `Dear <name>,`
followed by a blank line.  The greedy group takes the maximal run of
non-comma/non-newline characters; an optional comma and then the maximal
whitespace run are consumed (after which `\n?` can only match empty). -/
def formatGreeting (l : List Char) : List Char :=
  if greetMatch l then
    let rest := l.drop 5
    let name := rest.takeWhile notNameEnd
    let r1 := rest.drop name.length
    let r2 := if r1.head? = some ',' then r1.tail else r1
    dearLit ++ name ++ ',' :: '\n' :: '\n' :: (r2.dropWhile isSpc)
  else l

/-- `if current_paragraph: paragraphs.append(' '.join(current_paragraph))`. -/
def flushPara (ps : List (List Char)) (cur : List (List Char)) :
    List (List Char) :=
  if cur.isEmpty then ps else ps ++ [joinWith [' '] cur]

/-- The loop of lines 393-403: strip each line; blank lines flush the
current paragraph, non-blank lines extend it. -/
def paraGo : List (List Char) → List (List Char) → List (List Char) →
    List (List Char)
  | ps, cur, [] => flushPara ps cur
  | ps, cur, line :: rest =>
    let l := stripL line
    if l.isEmpty then paraGo (flushPara ps cur) [] rest
    else paraGo ps (cur ++ [l]) rest

/-- Embedding of `_format_text_paragraphs` (lines 386-406): group
consecutive non-blank (stripped) lines into space-joined paragraphs and
rejoin them with blank lines. -/
def formatTextParagraphs (l : List Char) : List Char :=
  joinWith ('\n' :: '\n' :: []) (paraGo [] [] (splitLinesL l))

/-- First closing token of the pattern of line 382. -/
def tok1 : List Char := "Sincerely,".data

/-- Second closing token of the pattern of line 382. -/
def tok2 : List Char := "Best regards,".data

/-- Third closing token of the pattern of line 382. -/
def tok3 : List Char := "Warm regards,".data

/-- The alternation `(Sincerely,|Best regards,|Warm regards,)` at a
position (the branches start with distinct letters, so at most one
matches). -/
def tokenAt (l : List Char) : Option (List Char) :=
  if tok1.isPrefixOf l then some tok1
  else if tok2.isPrefixOf l then some tok2
  else if tok3.isPrefixOf l then some tok3
  else none

/-- The class `[A-Za-z\s]` of the signature group. -/
def inNameClass (c : Char) : Bool := isAlphaAscii c || isSpc c

/-- `\s*\n*([A-Za-z\s]+)$` applied to the text after a closing token:
it matches iff that text is non-empty and lies entirely in `[A-Za-z\s]`
(the class contains every whitespace character, and `$` before a trailing
newline adds nothing new); the captured group is the text minus its
whitespace prefix, or — by backtracking when everything is whitespace —
just the final character. -/
def sigGroup (rest : List Char) : Option (List Char) :=
  if rest.isEmpty then none
  else if rest.all inNameClass then
    let g := rest.dropWhile isSpc
    some (if g.isEmpty then [rest.getLastD ' '] else g)
  else none

/-- A closing-token match beginning exactly at the given text, with its
captured signature group. -/
def viableAt (l : List Char) : Option (List Char × List Char) :=
  match tokenAt l with
  | some tk =>
    match sigGroup (l.drop tk.length) with
    | some g2 => some (tk, g2)
    | none => none
  | none => none

/-- Leftmost position of a viable closing token (the `\n*` prefix of the
pattern can only end at such a token, since the tokens do not start with a
newline). -/
def firstViable : List Char → Option (Nat × List Char × List Char)
  | [] => none
  | c :: rest =>
    match viableAt (c :: rest) with
    | some (tk, g2) => some (0, tk, g2)
    | none =>
      match firstViable rest with
      | some (t, tk, g2) => some (t + 1, tk, g2)
      | none => none

/-- Length of the newline run ending the list (the `\n*` prefix the match
absorbs). -/
def trailingNewlines (l : List Char) : Nat :=
  (l.reverse.takeWhile (fun c => c = '\n')).length

/-- Embedding of line 382,
`re.sub(r'\n*(Sincerely,|Best regards,|Warm regards,)\s*\n*([A-Za-z\s]+)$', r'\n\n\1\n\2', ·)`:
the leftmost match runs from the newline run before the first viable token
to the end of the string and is replaced by a blank line, the token, a line
break and the captured signature. -/
def formatClosing (l : List Char) : List Char :=
  match firstViable l with
  | none => l
  | some (t, tk, g2) =>
    l.take (t - trailingNewlines (l.take t)) ++
      '\n' :: '\n' :: (tk ++ '\n' :: g2)

/-- Whether one of the three closing tokens occurs anywhere in the text
(the necessary condition for the pattern of line 382 to match). -/
def hasClosingToken : List Char → Bool
  | [] => false
  | c :: rest => (tokenAt (c :: rest)).isSome || hasClosingToken rest

/-- A paragraph as produced by `_format_text_paragraphs`: non-empty,
strip-invariant, and without line breaks. -/
def goodPara (p : List Char) : Prop :=
  p ≠ [] ∧ stripL p = p ∧ '\n' ∉ p

/-- The line structure of paragraphs rejoined with blank lines: each
paragraph followed by one empty separator line. -/
def blankSep : List (List Char) → List (List Char)
  | [] => [[]]
  | [p] => [p]
  | p :: q :: ps => p :: [] :: blankSep (q :: ps)

/-- Embedding of `_format_business_letter` (lines 367-384): normalize line
breaks, normalize a leading greeting, re-paragraph, normalize the closing. -/
def formatBusinessLetterL (l : List Char) : List Char :=
  formatClosing (formatTextParagraphs (formatGreeting (normalizeBreaks l)))

/-- `_format_business_letter` on `String`s. -/
def format_business_letter (s : String) : String :=
  String.mk (formatBusinessLetterL s.data)

/-! ## Dispatch adapter (`attach_and_send_email`, lines 543-557, and
`_send_email_with_attachment`, lines 470-541)

The Gmail service is opaque: the identifiers its two network operations
would return are passed in, and the outcome records which operation (if
any) was invoked.  MIME assembly affects only the message payload, never
the control flow, and is not modelled. -/

/-- Outcome of a dispatch call: an error return (no network operation), or
the network draft-creation/send operation with the provider's id. -/
inductive SendOutcome where
  | err (msg : String)
  | draftCreated (id : String)
  | sent (id : String)
deriving DecidableEq

/-- Embedding of `_send_email_with_attachment` (lines 470-541): re-check the
session credentials, then invoke the draft-creation or send operation
according to `action`.  The recipient, subject, body and attachment feed
only the MIME payload, never the control flow. -/
def send_email_with_attachment (credsPresent credsValid : Bool)
    (_recipient _subject _body _attachmentPath action draftId sentId : String) :
    SendOutcome :=
  if !(credsPresent && credsValid) then
    .err "Gmail credentials not available. Please reconnect to Gmail."
  else if action = "draft" then .draftCreated draftId
  else .sent sentId

/-- Embedding of `attach_and_send_email` (lines 543-557), the spec's
`dispatch`: `fs` is the file-system existence test for the attachment
path. -/
def attach_and_send_email (credsPresent credsValid : Bool)
    (fs : String → Bool)
    (recipient subject body attachmentPath action draftId sentId : String) :
    SendOutcome :=
  if !credsPresent then .err "Gmail not connected"
  else if !(fs attachmentPath) then
    .err ("Attachment file not found: " ++ attachmentPath)
  else send_email_with_attachment credsPresent credsValid recipient subject
    body attachmentPath action draftId sentId

end Agent

namespace Agent

/-- C9: after every add the history holds at most 10 entries; the result is
exactly the freshly stamped entry followed by the first (most recent) 9 old
entries, each retained unchanged. -/
theorem add_history_capped (history : List HistoryEntry)
    (payload : List (String × String)) (now : String) :
    (add_to_session_history history payload now).length ≤ 10 ∧
      add_to_session_history history payload now =
        { fields := payload, timestamp := now } :: history.take 9 := by
  unfold add_to_session_history
  by_cases h : ({ fields := payload, timestamp := now } :: history).length > 10
  · simp only [h, if_pos]
    constructor
    · simp
    · simp [List.take_succ_cons]
  · simp only [h, if_neg, not_false_iff]
    have hlen : history.length ≤ 9 := by simp at h; omega
    constructor
    · simp; omega
    · simp [List.take_of_length_le hlen]

/-- The filtered dedup count computed by the code equals the cardinality of
the intersection of the two word sets. -/
lemma common_count_eq_inter_card (resume job : String) :
    ((tokensOf job).dedup.filter (fun w => (tokensOf resume).contains w)).length =
      (jobWordsF job ∩ resumeWordsF resume).card := by
  classical
  have hnd : ((tokensOf job).dedup.filter
      (fun w => (tokensOf resume).contains w)).Nodup :=
    (List.nodup_dedup _).filter _
  have hcard := List.card_toFinset
    ((tokensOf job).dedup.filter (fun w => (tokensOf resume).contains w))
  rw [hnd.dedup] at hcard
  rw [← hcard]
  congr 1
  ext w
  simp [List.mem_filter, List.mem_dedup, jobWordsF, resumeWordsF,
    List.contains, List.elem_eq_mem]

set_option exponentiation.threshold 1200 in
set_option maxRecDepth 8000 in
/-- C2 (counterexample): the claimed formula rounds, but the code truncates.
For job text `"aa bb cc"` (three distinct words) and resume text `"aa bb"`
(two of them shared) the code computes `int((2/3)*100)` in double
precision, which is `66`, while `round(100*2/3) = 67`. -/
theorem match_percentage_not_rounded :
    match_percentage "aa bb" "aa bb cc" = 66 ∧ round ((100 * 2 : ℚ) / 3) = 67 := by
  constructor
  · decide
  · norm_num [round_eq]

set_option exponentiation.threshold 1200 in
set_option maxRecDepth 8000 in
/-- C2 (amended): for non-empty `jobWords` the fallback's match percentage is
`min 100 (int((|jobWords ∩ resumeWords| / |jobWords|) * 100))` evaluated in
IEEE-754 double precision — Python's truncation of the twice-rounded double
product, not a rounding — it is `0` when `jobWords` is empty, and on
`jobWords = {python, sql, aws}`, `resumeWords = {python, java}` it is `33`.
The double evaluation also differs from the exact floor on realizable
inputs: 29 shared of 50 distinct job words gives `57`, not `⌊100·29/50⌋ = 58`. -/
theorem match_percentage_formula (resume job : String) :
    (jobWordsF job ≠ ∅ →
      match_percentage resume job =
        min 100 (intOfRatioTimes100
          ((jobWordsF job ∩ resumeWordsF resume).card) ((jobWordsF job).card))) ∧
    (jobWordsF job = ∅ → match_percentage resume job = 0) ∧
    match_percentage "python java" "python sql aws" = 33 ∧
    intOfRatioTimes100 29 50 = 57 ∧ 100 * 29 / 50 = 58 := by
  refine ⟨?_, ?_, by decide, by decide, by decide⟩
  · intro hne
    have hnil : tokensOf job ≠ [] := by
      intro hd
      apply hne
      rw [jobWordsF, hd]
      rfl
    have hdnil : (tokensOf job).dedup ≠ [] := by
      intro hd
      exact hnil ((List.dedup_eq_nil _).mp hd)
    have hemp : ((tokensOf job).dedup.isEmpty) = false := by
      simp [List.isEmpty_iff, hdnil]
    simp only [match_percentage, hemp, Bool.false_eq_true, if_false]
    rw [common_count_eq_inter_card resume job]
    have hlen : (tokensOf job).dedup.length = (jobWordsF job).card := by
      rw [jobWordsF, List.card_toFinset]
    rw [hlen]
  · intro he
    have : tokensOf job = [] := (List.toFinset_eq_empty_iff (tokensOf job)).mp he
    simp [match_percentage, this]

/-- C2 (witness for the amended theorem): instantiated at the claim's own
example pair. -/
theorem match_percentage_formula_witness :
    jobWordsF "python sql aws" ≠ ∅ ∧
      match_percentage "python java" "python sql aws" =
        min 100 (intOfRatioTimes100
          ((jobWordsF "python sql aws" ∩ resumeWordsF "python java").card)
          ((jobWordsF "python sql aws").card)) :=
  ⟨by decide, (match_percentage_formula "python java" "python sql aws").1 (by decide)⟩

/-- C1 (counterexample): a successful generation of a 50-character analysis
is rejected as an error (`success = False` with the "too short" message),
not routed to the deterministic fallback. -/
theorem analyze_short_not_fallback :
    ("This resume matches the job description very well.").length = 50 ∧
      analyze_job_match "python developer resume" "python backend role"
          (some "This resume matches the job description very well.") [] =
        (false, "Analysis response was too short. Please try again.") := by
  constructor
  · decide
  · rfl

/-- C1 (amended): with both inputs present, a generated analysis shorter
than 100 characters makes `analyze_job_match` return failure with the
"too short" message; only an outright generation failure (an exception from
`llm.invoke`) takes the deterministic-fallback path, which is returned as a
success. -/
theorem analyze_short_response_is_error (resume job t : String)
    (enum : List (List Char)) (h1 : resume ≠ "") (h2 : job ≠ "")
    (h3 : t.length < 100) :
    analyze_job_match resume job (some t) enum =
      (false, "Analysis response was too short. Please try again.") ∧
    analyze_job_match resume job none enum =
      (true, basic_text_analysis resume job enum) := by
  unfold analyze_job_match
  simp [h1, h2, h3]

/-- C1 (witness): the amended theorem at a concrete short generation. -/
theorem analyze_short_response_is_error_witness :
    analyze_job_match "python developer resume" "python backend role"
        (some "Looks fine.") [] =
      (false, "Analysis response was too short. Please try again.") ∧
    analyze_job_match "python developer resume" "python backend role" none [] =
      (true, basic_text_analysis "python developer resume" "python backend role" []) :=
  analyze_short_response_is_error "python developer resume" "python backend role"
    "Looks fine." [] (by decide) (by decide) (by decide)

/-- C8: the fallback analysis is deterministic — two invocations with the
same resume text, the same job text and the same set-iteration order (as
holds for repeated set construction from equal strings within one Python
process) produce the same output text, including the missing-keywords list
in the same order. -/
theorem basic_analysis_deterministic (r₁ j₁ r₂ j₂ : String)
    (e₁ e₂ : List (List Char)) (hr : r₁ = r₂) (hj : j₁ = j₂) (he : e₁ = e₂) :
    basic_text_analysis r₁ j₁ e₁ = basic_text_analysis r₂ j₂ e₂ := by
  rw [hr, hj, he]

/-- C8 (witness): determinism at a concrete invocation pair. -/
theorem basic_analysis_deterministic_witness :
    basic_text_analysis "python java" "python sql aws" ["python".data] =
      basic_text_analysis "python java" "python sql aws" ["python".data] :=
  basic_analysis_deterministic "python java" "python sql aws" "python java"
    "python sql aws" ["python".data] ["python".data] rfl rfl rfl

/-! ### Parser lemmas -/

/-- `split('\n')` always yields at least one piece. -/
lemma splitLinesL_ne_nil (l : List Char) : splitLinesL l ≠ [] := by
  cases l with
  | nil => simp [splitLinesL]
  | cons c rest =>
    by_cases hc : c = '\n'
    · simp [splitLinesL, hc]
    · simp only [splitLinesL, if_neg hc]
      rcases splitLinesL rest with _ | ⟨p, ps⟩ <;> simp

/-- `'\n'.join` undoes `split('\n')`. -/
lemma joinWith_splitLinesL (l : List Char) : joinWith ['\n'] (splitLinesL l) = l := by
  induction l with
  | nil => rfl
  | cons c rest ih =>
    by_cases hc : c = '\n'
    · subst hc
      simp only [splitLinesL, if_pos rfl]
      rcases h : splitLinesL rest with _ | ⟨p, ps⟩
      · exact absurd h (splitLinesL_ne_nil rest)
      · rw [h] at ih
        simpa [joinWith] using ih
    · simp only [splitLinesL, if_neg hc]
      rcases h : splitLinesL rest with _ | ⟨p, ps⟩
      · exact absurd h (splitLinesL_ne_nil rest)
      · rw [h] at ih
        cases ps with
        | nil => simpa [joinWith] using ih
        | cons q qs =>
          simp only [joinWith] at ih ⊢
          rw [List.cons_append, List.cons_append, ih]

/-- If no line lower-starts with `subject:`, the scan finds nothing. -/
lemma findSubjLine_none (lines : List (List Char))
    (h : ∀ l ∈ lines, subjLit.isPrefixOf (l.map lowerC) = false) :
    findSubjLine lines = none := by
  induction lines with
  | nil => rfl
  | cons l rest ih =>
    simp only [findSubjLine, h l (List.mem_cons_self l rest), Bool.false_eq_true,
      if_false]
    exact ih fun x hx => h x (List.mem_cons_of_mem l hx)

/-- The scan returns the first matching line and the lines after it. -/
lemma findSubjLine_decomp (pre : List (List Char)) (line : List Char)
    (post : List (List Char))
    (hpre : ∀ l ∈ pre, subjLit.isPrefixOf (l.map lowerC) = false)
    (hline : subjLit.isPrefixOf (line.map lowerC) = true) :
    findSubjLine (pre ++ line :: post) = some (line, post) := by
  induction pre with
  | nil => simp [findSubjLine, hline]
  | cons l rest ih =>
    simp only [List.cons_append, findSubjLine,
      hpre l (List.mem_cons_self l rest), Bool.false_eq_true, if_false]
    exact ih fun x hx => hpre x (List.mem_cons_of_mem l hx)

/-- The source's indexed inner loop is `dropWhile` over blank lines. -/
lemma firstNonBlankSuffix_eq_dropWhile (ls : List (List Char)) :
    firstNonBlankSuffix ls = ls.dropWhile (fun l => (stripL l).isEmpty) := by
  induction ls with
  | nil => rfl
  | cons l rest ih =>
    by_cases h : (stripL l).isEmpty
    · simp [firstNonBlankSuffix, List.dropWhile_cons, h, ih]
    · simp [firstNonBlankSuffix, List.dropWhile_cons, h]

/-- When every later line is blank, the inner loop leaves `body_lines`
empty. -/
lemma firstNonBlankSuffix_all_blank (ls : List (List Char))
    (h : ∀ l ∈ ls, stripL l = []) : firstNonBlankSuffix ls = [] := by
  induction ls with
  | nil => rfl
  | cons l rest ih =>
    have : (stripL l).isEmpty = true := by
      simp [List.isEmpty_iff, h l (List.mem_cons_self l rest)]
    simp only [firstNonBlankSuffix, this, if_true]
    exact ih fun x hx => h x (List.mem_cons_of_mem l hx)

/-- A found substring only uses characters of the text. -/
lemma substrB_subset (n : List Char) (h : List Char) (hs : substrB n h = true) :
    ∀ c ∈ n, c ∈ h := by
  induction h with
  | nil =>
    simp only [substrB, List.isEmpty_iff] at hs
    subst hs
    intro c hc
    exact absurd hc (List.not_mem_nil c)
  | cons a t ih =>
    simp only [substrB, Bool.or_eq_true] at hs
    rcases hs with hp | hs
    · intro c hc
      exact (List.isPrefixOf_iff_prefix.mp hp).subset hc
    · intro c hc
      exact List.mem_cons_of_mem a (ih hs c hc)

/-- Lower-casing fixes whitespace characters. -/
lemma lowerC_spc {c : Char} (h : isSpc c = true) : lowerC c = c := by
  have hc : ((((c = ' ' ∨ c = '\t') ∨ c = '\n') ∨ c = '\r') ∨ c = Char.ofNat 11) ∨
      c = Char.ofNat 12 := by
    simpa [isSpc] using h
  rcases hc with ((((rfl | rfl) | rfl) | rfl) | rfl) | rfl <;> decide

/-- A fully stripped-away line was all whitespace. -/
lemma stripL_nil_spc {l : List Char} (h : stripL l = []) :
    ∀ c ∈ l, isSpc c = true := by
  unfold stripL at h
  rw [List.reverse_eq_nil_iff] at h
  have h2 := List.dropWhile_eq_nil_iff.mp h
  have h3 : ∀ c ∈ l.dropWhile isSpc, isSpc c = true := fun c hc =>
    h2 c (List.mem_reverse.mpr hc)
  intro c hc
  rw [← List.takeWhile_append_dropWhile isSpc l] at hc
  rcases List.mem_append.mp hc with hc | hc
  · exact List.mem_takeWhile_imp hc
  · exact h3 c hc

/-- A line whose lower-casing contains a keyword with a non-space character
does not strip to the empty string. -/
lemma strip_ne_nil_of_substr {l kw : List Char} (c0 : Char) (hc0 : c0 ∈ kw)
    (hns : isSpc c0 = false) (hs : substrB kw (l.map lowerC) = true) :
    (stripL l).isEmpty = false := by
  rw [Bool.eq_false_iff]
  intro he
  have hnil : stripL l = [] := List.isEmpty_iff.mp he
  have hall := stripL_nil_spc hnil
  have hmem : c0 ∈ l.map lowerC := substrB_subset _ _ hs c0 hc0
  rcases List.mem_map.mp hmem with ⟨c, hcl, hlc⟩
  have hspc := hall c hcl
  rw [lowerC_spc hspc] at hlc
  rw [hlc] at hspc
  rw [hspc] at hns
  cases hns

/-- Shared branch-1 characterization: a found `subject:` line with a payload
that strips to non-empty yields that payload (quote-stripped) as subject and
the joined non-blank-onward suffix as body. -/
lemma parseEmailL_subject_branch (raw name line : List Char)
    (after : List (List Char))
    (hf : findSubjLine (splitLinesL raw) = some (line, after))
    (hne : stripL (afterFirstColon line) ≠ []) :
    parseEmailL raw name =
      (cleanSubject (stripL (afterFirstColon line)),
       stripL (joinWith ['\n'] (firstNonBlankSuffix after))) := by
  have hemp : (stripL (afterFirstColon line)).isEmpty = false := by
    simp [List.isEmpty_iff, hne]
  simp only [parseEmailL, hf, hemp, Bool.false_eq_true, if_false]

/-- C3 (counterexample): with raw text `"position\n"` (no `subject:` line,
`"position"` in line 1) the body is the *stripped* raw text `"position"`,
not the raw text verbatim. -/
theorem parse_position_body_not_verbatim :
    findSubjLine (splitLinesL ("position\n").data) = none ∧
      substrB "position".data
        ((((splitLinesL ("position\n").data).headD []).map lowerC)) = true ∧
      (parseEmail "position\n" "Applicant").2 ≠ "position\n" := by
  refine ⟨by decide, by decide, by decide⟩

/-- C3 (amended): when no line lower-starts with `subject:` and the first
line's lower-casing contains `position`, the subject is that first line
stripped of whitespace and surrounding quotes, and the body is the entire
raw text stripped of leading/trailing whitespace (`'\n'.join(lines).strip()`
with all lines kept). -/
theorem parse_position_first_line (raw name : String)
    (hnos : ∀ l ∈ splitLinesL raw.data, subjLit.isPrefixOf (l.map lowerC) = false)
    (hpos : substrB "position".data
      (((splitLinesL raw.data).headD []).map lowerC) = true) :
    parseEmail raw name =
      (String.mk (cleanSubject (stripL ((splitLinesL raw.data).headD []))),
       String.mk (stripL raw.data)) := by
  rcases h : splitLinesL raw.data with _ | ⟨l1, rest⟩
  · exact absurd h (splitLinesL_ne_nil raw.data)
  · rw [h] at hnos hpos
    simp only [List.headD_cons] at hpos ⊢
    have hfind : findSubjLine (l1 :: rest) = none := findSubjLine_none _ hnos
    have hkw : hasKeyword l1 = true := by
      simp only [hasKeyword, Bool.or_eq_true]
      exact Or.inl (Or.inl (Or.inr hpos))
    have hscan : scanKeyword ((l1 :: rest).take 3) = some l1 := by
      rw [List.take_succ_cons]
      simp [scanKeyword, hkw]
    have hs2 : (stripL l1).isEmpty = false :=
      strip_ne_nil_of_substr 'p' (by decide) (by decide) hpos
    have hjoin : joinWith ['\n'] (l1 :: rest) = raw.data := by
      rw [← h, joinWith_splitLinesL]
    unfold parseEmail
    simp only [parseEmailL]
    rw [h]
    simp only [hfind]
    simp only [fallbackParse, hscan, hs2, Bool.false_eq_true, if_false, hjoin]

/-- C3 (witness): a raw text with `position` in its first line and no
subject line. -/
theorem parse_position_first_line_witness :
    parseEmail "Open position available\nWe are hiring" "Applicant" =
      (String.mk (cleanSubject (stripL
        ((splitLinesL ("Open position available\nWe are hiring").data).headD []))),
       String.mk (stripL ("Open position available\nWe are hiring").data)) :=
  parse_position_first_line "Open position available\nWe are hiring" "Applicant"
    (by decide) (by decide)

/-- C4 (counterexample): raw text `"Subject:\nhello"` has a line
lower-prefixed `subject:`, yet the parser falls through to the branch-3
default subject — branch 1 does not short-circuit when its payload strips
to empty. -/
theorem subject_line_not_short_circuit :
    subjLit.isPrefixOf ((("Subject:").data).map lowerC) = true ∧
      parseEmail "Subject:\nhello" "Applicant" =
        ("Job Application - Applicant", "Subject:\nhello") := by
  refine ⟨by decide, by decide⟩

/-- C4 (amended): the three branches are mutually exclusive and branch 1
short-circuits branches 2 and 3 exactly when the found `subject:` line's
payload strips to a non-empty string: in that case the result is
independent of the fallback name (so the branch-3 default cannot appear)
and the subject is the cleaned payload (so the branch-2 heuristic cannot
appear); a payload stripping to empty falls through to branches 2/3. -/
theorem subject_line_short_circuits (raw n₁ n₂ : String) (line : List Char)
    (after : List (List Char))
    (hf : findSubjLine (splitLinesL raw.data) = some (line, after))
    (hne : stripL (afterFirstColon line) ≠ []) :
    parseEmail raw n₁ = parseEmail raw n₂ ∧
      (parseEmail raw n₁).1 =
        String.mk (cleanSubject (stripL (afterFirstColon line))) := by
  unfold parseEmail
  rw [parseEmailL_subject_branch raw.data n₁.data line after hf hne,
    parseEmailL_subject_branch raw.data n₂.data line after hf hne]
  exact ⟨rfl, rfl⟩

/-- C4 (witness): at a subject line with non-empty payload the result
ignores the fallback name. -/
theorem subject_line_short_circuits_witness :
    parseEmail "Subject: Role\nBody" "Alice" = parseEmail "Subject: Role\nBody" "Bob" ∧
      (parseEmail "Subject: Role\nBody" "Alice").1 =
        String.mk (cleanSubject (stripL (afterFirstColon ("Subject: Role").data))) :=
  subject_line_short_circuits "Subject: Role\nBody" "Alice" "Bob"
    ("Subject: Role").data [("Body").data] (by decide) (by decide)

/-- C5 (counterexample): for `"Subject: \nworld"` the payload `X = " "`
strips to empty, so the parser does not return `subject == X.strip()` and a
body starting after the subject line: it falls through to the default
subject with the whole text as body. -/
theorem parse_subject_line_empty_payload :
    subjLit.isPrefixOf ((("Subject: ").data).map lowerC) = true ∧
      parseEmail "Subject: \nworld" "Applicant" =
        ("Job Application - Applicant", "Subject: \nworld") ∧
      parseEmail "Subject: \nworld" "Applicant" ≠ ("", "world") := by
  refine ⟨by decide, by decide, by decide⟩

/-- C5 (amended): for raw text containing a line lower-prefixed `subject:`
whose payload `X` (text after the first colon) strips to a *non-empty*
string — the first such line — the parser returns `X.strip()` further
stripped of surrounding quotes and whitespace as subject, and the lines
from the first non-blank line after the subject line, rejoined and
stripped, as body. -/
theorem parse_subject_line (raw name : String) (pre : List (List Char))
    (line : List Char) (post : List (List Char))
    (hsplit : splitLinesL raw.data = pre ++ line :: post)
    (hpre : ∀ l ∈ pre, subjLit.isPrefixOf (l.map lowerC) = false)
    (hline : subjLit.isPrefixOf (line.map lowerC) = true)
    (hne : stripL (afterFirstColon line) ≠ []) :
    parseEmail raw name =
      (String.mk (cleanSubject (stripL (afterFirstColon line))),
       String.mk (stripL (joinWith ['\n']
         (post.dropWhile (fun l => (stripL l).isEmpty))))) := by
  have hf : findSubjLine (splitLinesL raw.data) = some (line, post) := by
    rw [hsplit]
    exact findSubjLine_decomp pre line post hpre hline
  unfold parseEmail
  rw [parseEmailL_subject_branch raw.data name.data line post hf hne,
    firstNonBlankSuffix_eq_dropWhile]

/-- C5 (witness): a well-formed `Subject:`-prefixed raw text. -/
theorem parse_subject_line_witness :
    parseEmail "Subject: Data Engineer\n\nDear Team" "Applicant" =
      (String.mk (cleanSubject (stripL (afterFirstColon ("Subject: Data Engineer").data))),
       String.mk (stripL (joinWith ['\n']
         (([[], ("Dear Team").data] : List (List Char)).dropWhile
           (fun l => (stripL l).isEmpty))))) :=
  parse_subject_line "Subject: Data Engineer\n\nDear Team" "Applicant" []
    ("Subject: Data Engineer").data [[], ("Dear Team").data]
    (by decide) (by decide) (by decide) (by decide)

/-- C10 (counterexample): for the raw text `"Subject:"` (subject line last,
empty payload) the parser does not return the trimmed subject with an empty
body: the empty payload falls through to the default subject and the body
is the whole raw text. -/
theorem parse_subject_only_line :
    parseEmail "Subject:" "Applicant" = ("Job Application - Applicant", "Subject:") ∧
      (parseEmail "Subject:" "Applicant").2 ≠ "" := by
  refine ⟨by decide, by decide⟩

/-- C10 (amended): when the found `subject:` line's payload strips to a
non-empty string and no non-blank line follows (it is the last line, or
only blank lines follow), the parser still succeeds, returning the cleaned
trimmed subject together with an empty body string. -/
theorem parse_subject_line_no_body (raw name : String) (line : List Char)
    (after : List (List Char))
    (hf : findSubjLine (splitLinesL raw.data) = some (line, after))
    (hne : stripL (afterFirstColon line) ≠ [])
    (hblank : ∀ l ∈ after, stripL l = []) :
    parseEmail raw name =
      (String.mk (cleanSubject (stripL (afterFirstColon line))), "") := by
  unfold parseEmail
  rw [parseEmailL_subject_branch raw.data name.data line after hf hne,
    firstNonBlankSuffix_all_blank after hblank]
  rfl

/-- C10 (witness): a subject line followed only by blank lines. -/
theorem parse_subject_line_no_body_witness :
    parseEmail "Subject: Hi\n  \n" "Applicant" =
      (String.mk (cleanSubject (stripL (afterFirstColon ("Subject: Hi").data))), "") :=
  parse_subject_line_no_body "Subject: Hi\n  \n" "Applicant" ("Subject: Hi").data
    [("  ").data, []] (by decide) (by decide) (by decide)

/-- C6 (counterexample): a dispatch call with a missing attachment *and* no
connected send capability fails with the connection error, not the
attachment error — the credentials check of line 546 precedes the existence
check of line 548 (the spec orders them the other way). -/
theorem dispatch_missing_attachment_not_connected :
    attach_and_send_email false true (fun _ => false) "recruiter@example.com"
        "Application" "Dear Team" "resume.pdf" "draft" "d1" "m1" =
        .err "Gmail not connected" ∧
      SendOutcome.err "Gmail not connected" ≠
        .err ("Attachment file not found: " ++ "resume.pdf") := by
  refine ⟨rfl, by decide⟩

/-- C6 (amended): provided the send capability is present, a dispatch call
whose attachment path does not exist fails with the attachment-not-found
error and performs no network call (neither the draft-creation nor the send
operation of the send capability is invoked). -/
theorem dispatch_missing_attachment (credsValid : Bool) (fs : String → Bool)
    (recipient subject body attachmentPath action draftId sentId : String)
    (hfs : fs attachmentPath = false) :
    attach_and_send_email true credsValid fs recipient subject body
        attachmentPath action draftId sentId =
        .err ("Attachment file not found: " ++ attachmentPath) ∧
      (∀ i, attach_and_send_email true credsValid fs recipient subject body
        attachmentPath action draftId sentId ≠ .draftCreated i) ∧
      (∀ i, attach_and_send_email true credsValid fs recipient subject body
        attachmentPath action draftId sentId ≠ .sent i) := by
  have h : attach_and_send_email true credsValid fs recipient subject body
      attachmentPath action draftId sentId =
      .err ("Attachment file not found: " ++ attachmentPath) := by
    simp [attach_and_send_email, hfs]
  refine ⟨h, fun i => ?_, fun i => ?_⟩ <;> rw [h] <;> simp

/-- C6 (witness): the amended theorem at a concrete nonexistent path. -/
theorem dispatch_missing_attachment_witness :
    attach_and_send_email true true (fun _ => false) "recruiter@example.com"
        "Application" "Dear Team" "missing.pdf" "draft" "d1" "m1" =
        .err ("Attachment file not found: " ++ "missing.pdf") ∧
      (∀ i, attach_and_send_email true true (fun _ => false)
        "recruiter@example.com" "Application" "Dear Team" "missing.pdf"
        "draft" "d1" "m1" ≠ .draftCreated i) ∧
      (∀ i, attach_and_send_email true true (fun _ => false)
        "recruiter@example.com" "Application" "Dear Team" "missing.pdf"
        "draft" "d1" "m1" ≠ .sent i) :=
  dispatch_missing_attachment true (fun _ => false) "recruiter@example.com"
    "Application" "Dear Team" "missing.pdf" "draft" "d1" "m1" rfl

/-! ### Formatter lemmas: `strip` -/

/-- `stripL` through Mathlib's `rdropWhile`. -/
lemma stripL_eq_rdropWhile (l : List Char) :
    stripL l = List.rdropWhile isSpc (l.dropWhile isSpc) := rfl

/-- Stripping only removes characters. -/
lemma stripL_subset (l : List Char) : stripL l ⊆ l := fun c hc =>
  (List.dropWhile_suffix isSpc).subset
    ((List.rdropWhile_prefix isSpc (l.dropWhile isSpc)).subset
      (by rwa [← stripL_eq_rdropWhile]))

/-- The first character of a stripped text is not whitespace. -/
lemma stripL_head?_not_spc {l : List Char} {x : Char}
    (h : (stripL l).head? = some x) : isSpc x = false := by
  have hne : stripL l ≠ [] := by
    intro h0
    rw [h0] at h
    cases h
  have hAne : l.dropWhile isSpc ≠ [] := by
    intro h0
    apply hne
    rw [stripL_eq_rdropWhile, h0, List.rdropWhile_nil]
  obtain ⟨t, ht⟩ := List.rdropWhile_prefix isSpc (l.dropWhile isSpc)
  rw [← stripL_eq_rdropWhile] at ht
  have hhead : (l.dropWhile isSpc).head? = some x := by
    rw [← ht, List.head?_append_of_ne_nil _ hne]
    exact h
  have hfalse := List.head_dropWhile_not isSpc l hAne
  have hx : (l.dropWhile isSpc).head hAne = x := by
    have := List.head?_eq_head hAne
    rw [this] at hhead
    exact Option.some_injective _ hhead
  rwa [hx] at hfalse

/-- The last character of a stripped text is not whitespace. -/
lemma stripL_getLast?_not_spc {l : List Char} {x : Char}
    (h : (stripL l).getLast? = some x) : isSpc x = false := by
  have hne : stripL l ≠ [] := by
    intro h0
    rw [h0] at h
    cases h
  have hfalse := List.rdropWhile_last_not isSpc (l.dropWhile isSpc)
    (by rwa [← stripL_eq_rdropWhile])
  have hx : (stripL l).getLast hne = x := by
    have := List.getLast?_eq_getLast (stripL l) hne
    rw [this] at h
    exact Option.some_injective _ h
  rw [Bool.not_eq_true] at hfalse
  rw [← hx]
  exact hfalse

/-- A text whose first and last characters are not whitespace strips to
itself. -/
lemma stripL_eq_self {l : List Char}
    (hh : ∀ x, l.head? = some x → isSpc x = false)
    (hl : ∀ x, l.getLast? = some x → isSpc x = false) : stripL l = l := by
  rcases hln : l with _ | ⟨c, t⟩
  · rfl
  · rw [← hln]
    have hne : l ≠ [] := by rw [hln]; exact List.cons_ne_nil c t
    have h1 : l.dropWhile isSpc = l := by
      rw [hln, List.dropWhile_cons]
      have : isSpc c = false := hh c (by rw [hln]; rfl)
      simp [this]
    rw [stripL_eq_rdropWhile, h1]
    rw [List.rdropWhile_eq_self_iff]
    intro hlne
    have := hl (l.getLast hlne) (List.getLast?_eq_getLast l hlne)
    simp [this]

/-- Stripping is idempotent. -/
lemma stripL_idem (l : List Char) : stripL (stripL l) = stripL l :=
  stripL_eq_self (fun _ hx => stripL_head?_not_spc hx)
    (fun _ hx => stripL_getLast?_not_spc hx)

/-! ### Formatter lemmas: `join` and `split` -/

/-- Characters of a join come from the pieces or the separator. -/
lemma mem_joinWith {c : Char} {sep : List Char} :
    ∀ {xs : List (List Char)}, c ∈ joinWith sep xs →
      (∃ x ∈ xs, c ∈ x) ∨ c ∈ sep := by
  intro xs
  induction xs with
  | nil => intro h; cases h
  | cons x xs ih =>
    cases xs with
    | nil =>
      intro h
      exact Or.inl ⟨x, List.mem_cons_self x [], h⟩
    | cons y ys =>
      intro h
      simp only [joinWith, List.append_assoc, List.mem_append] at h
      rcases h with h | h | h
      · exact Or.inl ⟨x, List.mem_cons_self x (y :: ys), h⟩
      · exact Or.inr h
      · rcases ih h with ⟨s, hs, hcs⟩ | h
        · exact Or.inl ⟨s, List.mem_cons_of_mem x hs, hcs⟩
        · exact Or.inr h

/-- A join of non-empty pieces is non-empty. -/
lemma joinWith_ne_nil {sep : List Char} :
    ∀ {xs : List (List Char)}, xs ≠ [] → (∀ s ∈ xs, s ≠ []) →
      joinWith sep xs ≠ [] := by
  intro xs
  induction xs with
  | nil => intro h; exact absurd rfl h
  | cons x xs ih =>
    intro _ hall
    cases xs with
    | nil => exact hall x (List.mem_cons_self x [])
    | cons y ys =>
      have hx : x ≠ [] := hall x (List.mem_cons_self x (y :: ys))
      simp only [joinWith]
      intro hcon
      rcases List.append_eq_nil.mp ((List.append_assoc x sep _).symm ▸ hcon) with ⟨h1, _⟩
      exact hx h1

/-- The head of a join is the head of its first (non-empty) piece. -/
lemma joinWith_head? {sep x : List Char} (xs : List (List Char)) (hx : x ≠ []) :
    (joinWith sep (x :: xs)).head? = x.head? := by
  cases xs with
  | nil => rfl
  | cons y ys =>
    simp only [joinWith, List.append_assoc]
    exact List.head?_append_of_ne_nil _ hx

/-- The last of a join of non-empty pieces is the last of its final piece. -/
lemma joinWith_getLast? (sep : List Char) :
    ∀ {xs : List (List Char)} {z : List Char}, (∀ s ∈ xs, s ≠ []) →
      xs.getLast? = some z → (joinWith sep xs).getLast? = z.getLast? := by
  intro xs
  induction xs with
  | nil => intro z _ h; cases h
  | cons x xs ih =>
    intro z hall hlast
    cases xs with
    | nil =>
      simp only [List.getLast?_singleton, Option.some_inj] at hlast
      rw [← hlast]
      rfl
    | cons y ys =>
      rw [List.getLast?_cons_cons] at hlast
      have hys : ∀ s ∈ y :: ys, s ≠ [] := fun s hs =>
        hall s (List.mem_cons_of_mem x hs)
      have hjne : joinWith sep (y :: ys) ≠ [] :=
        joinWith_ne_nil (List.cons_ne_nil y ys) hys
      simp only [joinWith, List.append_assoc]
      rw [List.getLast?_append_of_ne_nil]
      · rw [List.getLast?_append_of_ne_nil]
        · exact ih hys hlast
        · exact hjne
      · intro hcon
        rcases List.append_eq_nil.mp hcon with ⟨_, h2⟩
        exact hjne h2

/-- Characters of split pieces come from the text. -/
lemma mem_splitLinesL {c : Char} :
    ∀ {l : List Char} {p : List Char}, p ∈ splitLinesL l → c ∈ p → c ∈ l := by
  intro l
  induction l with
  | nil =>
    intro p hp hc
    simp only [splitLinesL, List.mem_singleton] at hp
    rw [hp] at hc
    cases hc
  | cons a rest ih =>
    intro p hp hc
    by_cases ha : a = '\n'
    · rw [splitLinesL, if_pos ha] at hp
      rcases List.mem_cons.mp hp with h | h
      · rw [h] at hc; cases hc
      · exact List.mem_cons_of_mem a (ih h hc)
    · rw [splitLinesL, if_neg ha] at hp
      rcases hq : splitLinesL rest with _ | ⟨q, qs⟩
      · exact absurd hq (splitLinesL_ne_nil rest)
      · rw [hq] at hp
        rcases List.mem_cons.mp hp with h | h
        · rw [h] at hc
          rcases List.mem_cons.mp hc with h2 | h2
          · rw [h2]; exact List.mem_cons_self a rest
          · exact List.mem_cons_of_mem a
              (ih (hq ▸ List.mem_cons_self q qs) h2)
        · exact List.mem_cons_of_mem a
            (ih (hq ▸ List.mem_cons_of_mem q h) hc)

/-- Split pieces contain no newline. -/
lemma splitLinesL_no_newline :
    ∀ {l : List Char} {p : List Char}, p ∈ splitLinesL l → '\n' ∉ p := by
  intro l
  induction l with
  | nil =>
    intro p hp
    simp only [splitLinesL, List.mem_singleton] at hp
    rw [hp]
    exact List.not_mem_nil _
  | cons a rest ih =>
    intro p hp
    by_cases ha : a = '\n'
    · rw [splitLinesL, if_pos ha] at hp
      rcases List.mem_cons.mp hp with h | h
      · rw [h]; exact List.not_mem_nil _
      · exact ih h
    · rw [splitLinesL, if_neg ha] at hp
      rcases hq : splitLinesL rest with _ | ⟨q, qs⟩
      · exact absurd hq (splitLinesL_ne_nil rest)
      · rw [hq] at hp
        rcases List.mem_cons.mp hp with h | h
        · rw [h]
          intro hmem
          rcases List.mem_cons.mp hmem with h2 | h2
          · exact ha h2.symm
          · exact ih (hq ▸ List.mem_cons_self q qs) h2
        · exact ih (hq ▸ List.mem_cons_of_mem q h)

/-! ### Formatter lemmas: paragraphs -/

/-- Flushed output is a previous paragraph or the joined current one. -/
lemma mem_flushPara {ps cur : List (List Char)} {p : List Char}
    (h : p ∈ flushPara ps cur) :
    p ∈ ps ∨ (cur ≠ [] ∧ p = joinWith [' '] cur) := by
  unfold flushPara at h
  by_cases hc : cur.isEmpty
  · rw [if_pos hc] at h
    exact Or.inl h
  · rw [if_neg hc] at h
    rcases List.mem_append.mp h with h | h
    · exact Or.inl h
    · exact Or.inr ⟨by simpa [List.isEmpty_iff] using hc, List.mem_singleton.mp h⟩

/-- Character provenance through the paragraph loop. -/
lemma paraGo_chars {c : Char} :
    ∀ (lines ps cur : List (List Char)) (p : List Char),
      p ∈ paraGo ps cur lines → c ∈ p →
      (∃ q ∈ ps, c ∈ q) ∨ (∃ s ∈ cur, c ∈ s) ∨ (∃ ln ∈ lines, c ∈ ln) ∨
        c = ' ' := by
  intro lines
  induction lines with
  | nil =>
    intro ps cur p hp hc
    rcases mem_flushPara hp with h | ⟨_, hpj⟩
    · exact Or.inl ⟨p, h, hc⟩
    · rw [hpj] at hc
      rcases mem_joinWith hc with ⟨s, hs, hcs⟩ | hsep
      · exact Or.inr (Or.inl ⟨s, hs, hcs⟩)
      · right; right; right; simpa using hsep
  | cons line rest ih =>
    intro ps cur p hp hc
    simp only [paraGo] at hp
    by_cases hb : (stripL line).isEmpty
    · rw [if_pos hb] at hp
      rcases ih _ _ _ hp hc with h | h | h | h
      · obtain ⟨q, hq, hcq⟩ := h
        rcases mem_flushPara hq with h2 | ⟨_, hqj⟩
        · exact Or.inl ⟨q, h2, hcq⟩
        · rw [hqj] at hcq
          rcases mem_joinWith hcq with ⟨s, hs, hcs⟩ | hsep
          · exact Or.inr (Or.inl ⟨s, hs, hcs⟩)
          · right; right; right; simpa using hsep
      · obtain ⟨s, hs, _⟩ := h
        cases hs
      · obtain ⟨ln, hln, hcln⟩ := h
        exact Or.inr (Or.inr (Or.inl ⟨ln, List.mem_cons_of_mem line hln, hcln⟩))
      · exact Or.inr (Or.inr (Or.inr h))
    · rw [if_neg hb] at hp
      rcases ih _ _ _ hp hc with h | h | h | h
      · exact Or.inl h
      · obtain ⟨s, hs, hcs⟩ := h
        rcases List.mem_append.mp hs with h2 | h2
        · exact Or.inr (Or.inl ⟨s, h2, hcs⟩)
        · rw [List.mem_singleton.mp h2] at hcs
          exact Or.inr (Or.inr (Or.inl
            ⟨line, List.mem_cons_self _ _, stripL_subset line hcs⟩))
      · obtain ⟨ln, hln, hcln⟩ := h
        exact Or.inr (Or.inr (Or.inl ⟨ln, List.mem_cons_of_mem line hln, hcln⟩))
      · exact Or.inr (Or.inr (Or.inr h))

/-- Characters of a re-paragraphed text come from the text, a newline, or a
space. -/
lemma formatTextParagraphs_chars {c : Char} {l : List Char}
    (h : c ∈ formatTextParagraphs l) : c ∈ l ∨ c = '\n' ∨ c = ' ' := by
  unfold formatTextParagraphs at h
  rcases mem_joinWith h with ⟨p, hp, hcp⟩ | hsep
  · rcases paraGo_chars _ _ _ _ hp hcp with h | h | h | h
    · obtain ⟨q, hq, _⟩ := h
      cases hq
    · obtain ⟨s, hs, _⟩ := h
      cases hs
    · obtain ⟨ln, hln, hcln⟩ := h
      exact Or.inl (mem_splitLinesL hln hcln)
    · exact Or.inr (Or.inr h)
  · exact Or.inr (Or.inl (by simpa using hsep))

/-- A space-join of non-empty strip-invariant newline-free pieces is a good
paragraph. -/
lemma join_goodPara {cur : List (List Char)} (hne : cur ≠ [])
    (hall : ∀ s ∈ cur, s ≠ [] ∧ stripL s = s ∧ '\n' ∉ s) :
    goodPara (joinWith [' '] cur) := by
  obtain ⟨x, xs, rfl⟩ := List.exists_cons_of_ne_nil hne
  have hx := hall x (List.mem_cons_self x xs)
  refine ⟨joinWith_ne_nil (List.cons_ne_nil x xs) (fun s hs => (hall s hs).1),
    ?_, ?_⟩
  · apply stripL_eq_self
    · intro z hz
      rw [joinWith_head? xs hx.1] at hz
      have : (stripL x).head? = some z := by rw [hx.2.1]; exact hz
      exact stripL_head?_not_spc this
    · intro z hz
      rcases hw : (x :: xs).getLast? with _ | w
      · rw [List.getLast?_eq_none_iff] at hw
        cases hw
      · have hj := joinWith_getLast? [' '] (fun s hs => (hall s hs).1) hw
        rw [hj] at hz
        have hwmem : w ∈ x :: xs := by
          obtain ⟨h9, hw2⟩ :=
            List.mem_getLast?_eq_getLast (show w ∈ (x :: xs).getLast? from hw)
          rw [hw2]
          exact List.getLast_mem h9
        have hws := hall w hwmem
        have : (stripL w).getLast? = some z := by rw [hws.2.1]; exact hz
        exact stripL_getLast?_not_spc this
  · intro hmem
    rcases mem_joinWith hmem with ⟨s, hs, hcs⟩ | hsep
    · exact (hall s hs).2.2 hcs
    · simp at hsep

/-- Every paragraph the loop produces is good. -/
lemma paraGo_good :
    ∀ (lines ps cur : List (List Char)), (∀ p ∈ ps, goodPara p) →
      (∀ s ∈ cur, s ≠ [] ∧ stripL s = s ∧ '\n' ∉ s) →
      (∀ ln ∈ lines, '\n' ∉ ln) →
      ∀ p ∈ paraGo ps cur lines, goodPara p := by
  intro lines
  induction lines with
  | nil =>
    intro ps cur hps hcur _ p hp
    rcases mem_flushPara hp with h | ⟨hne, hpj⟩
    · exact hps p h
    · rw [hpj]
      exact join_goodPara hne hcur
  | cons line rest ih =>
    intro ps cur hps hcur hlines p hp
    simp only [paraGo] at hp
    by_cases hb : (stripL line).isEmpty
    · rw [if_pos hb] at hp
      refine ih _ _ ?_ ?_ ?_ p hp
      · intro q hq
        rcases mem_flushPara hq with h | ⟨hne, hqj⟩
        · exact hps q h
        · rw [hqj]
          exact join_goodPara hne hcur
      · intro s hs
        cases hs
      · intro ln hln
        exact hlines ln (List.mem_cons_of_mem _ hln)
    · rw [if_neg hb] at hp
      refine ih _ _ hps ?_ ?_ p hp
      · intro s hs
        rcases List.mem_append.mp hs with h | h
        · exact hcur s h
        · rw [List.mem_singleton.mp h]
          refine ⟨?_, stripL_idem line, ?_⟩
          · simpa [List.isEmpty_iff] using hb
          · intro hmem
            exact hlines line (List.mem_cons_self _ _) (stripL_subset line hmem)
      · intro ln hln
        exact hlines ln (List.mem_cons_of_mem _ hln)

/-- Splitting after prepending a newline-free prefix extends the first
piece. -/
lemma splitLinesL_append {p : List Char} (hp : '\n' ∉ p) {l q : List Char}
    {qs : List (List Char)} (hl : splitLinesL l = q :: qs) :
    splitLinesL (p ++ l) = (p ++ q) :: qs := by
  induction p with
  | nil => simpa using hl
  | cons c p' ih =>
    have hc : ¬(c = '\n') := fun h => hp (by rw [h]; exact List.mem_cons_self _ _)
    simp only [List.cons_append, splitLinesL, if_neg hc, List.append_eq]
    rw [ih (fun hm => hp (List.mem_cons_of_mem c hm))]

/-- A newline-free text splits to a single line. -/
lemma splitLinesL_of_no_newline {p : List Char} (hp : '\n' ∉ p) :
    splitLinesL p = [p] := by
  have h := splitLinesL_append hp (show splitLinesL ([] : List Char) = [] :: [] from rfl)
  simpa using h

/-- Splitting blank-line-joined paragraphs yields each paragraph followed by
an empty separator line. -/
lemma splitLinesL_joinBlank :
    ∀ {ps : List (List Char)}, (∀ p ∈ ps, '\n' ∉ p) →
      splitLinesL (joinWith ('\n' :: '\n' :: []) ps) = blankSep ps := by
  intro ps
  induction ps with
  | nil => intro _; rfl
  | cons p ps ih =>
    intro hall
    cases ps with
    | nil => exact splitLinesL_of_no_newline (hall p (List.mem_cons_self p []))
    | cons q qs =>
      have hrest := ih (fun x hx => hall x (List.mem_cons_of_mem p hx))
      have h2 : splitLinesL ('\n' :: '\n' :: joinWith ('\n' :: '\n' :: []) (q :: qs)) =
          [] :: [] :: blankSep (q :: qs) := by
        rw [splitLinesL, if_pos rfl, splitLinesL, if_pos rfl, hrest]
      have h3 := splitLinesL_append (hall p (List.mem_cons_self p (q :: qs))) h2
      simp only [joinWith, List.append_assoc]
      simp only [List.cons_append, List.nil_append] at h3 ⊢
      rw [h3]
      simp [blankSep]

/-- Running the loop over the line structure of good paragraphs returns
exactly those paragraphs. -/
lemma paraGo_blankSep :
    ∀ {ps : List (List Char)}, (∀ p ∈ ps, goodPara p) →
      ∀ acc, paraGo acc [] (blankSep ps) = acc ++ ps := by
  intro ps
  induction ps with
  | nil =>
    intro _ acc
    simp [blankSep, paraGo, flushPara, stripL]
  | cons p ps ih =>
    intro hall acc
    obtain ⟨hpne, hps, _⟩ := hall p (List.mem_cons_self p ps)
    have hemp : (stripL p).isEmpty = false := by
      rw [hps]
      simpa [List.isEmpty_iff] using hpne
    cases ps with
    | nil =>
      simp only [blankSep, paraGo, hemp, Bool.false_eq_true, if_false]
      simp only [paraGo, flushPara, List.nil_append]
      simp [joinWith, hps]
    | cons q qs =>
      have hrest := ih (fun x hx => hall x (List.mem_cons_of_mem p hx))
      simp only [blankSep, paraGo, hemp, Bool.false_eq_true, if_false]
      have hblank : (stripL ([] : List Char)).isEmpty = true := rfl
      simp only [paraGo, hblank, if_true]
      rw [hrest (flushPara acc ([] ++ [stripL p]))]
      simp [flushPara, joinWith, hps]

/-- `_format_text_paragraphs` is idempotent. -/
lemma formatTextParagraphs_idem (l : List Char) :
    formatTextParagraphs (formatTextParagraphs l) = formatTextParagraphs l := by
  have hgood : ∀ p ∈ paraGo [] [] (splitLinesL l), goodPara p :=
    paraGo_good _ [] [] (fun p hp => absurd hp (List.not_mem_nil p))
      (fun s hs => absurd hs (List.not_mem_nil s))
      (fun _ hln => splitLinesL_no_newline hln)
  conv_lhs => rw [formatTextParagraphs]
  rw [formatTextParagraphs]
  rw [splitLinesL_joinBlank (fun p hp => (hgood p hp).2.2)]
  rw [paraGo_blankSep hgood []]
  rfl

/-! ### Formatter lemmas: carriage returns and the two substitutions -/

/-- Step equation: a non-`\r` head passes through. -/
lemma normalizeBreaks_cons_ne (c : Char) (rest : List Char) (hc : ¬(c = '\r')) :
    normalizeBreaks (c :: rest) = c :: normalizeBreaks rest := by
  rw [normalizeBreaks.eq_def]
  simp [hc]

/-- Step equation: a `\r\n` pair becomes one `\n`. -/
lemma normalizeBreaks_crlf (rest2 : List Char) :
    normalizeBreaks ('\r' :: '\n' :: rest2) = '\n' :: normalizeBreaks rest2 := by
  rw [normalizeBreaks.eq_def]
  simp

/-- Step equation: a lone `\r` becomes `\n`. -/
lemma normalizeBreaks_cr_ne (d : Char) (rest2 : List Char) (hd : ¬(d = '\n')) :
    normalizeBreaks ('\r' :: d :: rest2) = '\n' :: normalizeBreaks (d :: rest2) := by
  rw [normalizeBreaks.eq_def]
  simp [hd]

/-- Normalization leaves no carriage return. -/
lemma normalizeBreaks_no_cr : ∀ (l : List Char), '\r' ∉ normalizeBreaks l := by
  intro l
  induction l with
  | nil => decide
  | cons c rest ih =>
    by_cases hc : c = '\r'
    · subst hc
      cases rest with
      | nil => decide
      | cons d rest2 =>
        by_cases hd : d = '\n'
        · subst hd
          rw [normalizeBreaks_cons_ne '\n' rest2 (by decide)] at ih
          rw [normalizeBreaks_crlf]
          exact ih
        · rw [normalizeBreaks_cr_ne d rest2 hd]
          intro hmem
          rcases List.mem_cons.mp hmem with h | h
          · cases h
          · exact ih h
    · rw [normalizeBreaks_cons_ne c rest hc]
      intro hmem
      rcases List.mem_cons.mp hmem with h | h
      · exact hc h.symm
      · exact ih h

/-- Normalization is the identity on carriage-return-free text. -/
lemma normalizeBreaks_of_no_cr : ∀ {l : List Char}, '\r' ∉ l →
    normalizeBreaks l = l := by
  intro l
  induction l with
  | nil => intro _; rfl
  | cons c rest ih =>
    intro h
    have hc : ¬(c = '\r') := fun hh => h (by rw [hh]; exact List.mem_cons_self _ _)
    rw [normalizeBreaks_cons_ne c rest hc, ih (fun hm => h (List.mem_cons_of_mem c hm))]

/-- Whatever remains after the optional comma is part of the original
text. -/
lemma greet_tail_subset (l : List Char) :
    (if ((l.drop 5).drop ((l.drop 5).takeWhile notNameEnd).length).head? = some ','
      then ((l.drop 5).drop ((l.drop 5).takeWhile notNameEnd).length).tail
      else (l.drop 5).drop ((l.drop 5).takeWhile notNameEnd).length).dropWhile isSpc
      ⊆ l := by
  intro x hx
  have h1 := (List.dropWhile_suffix isSpc).subset hx
  have h2 : x ∈ (l.drop 5).drop ((l.drop 5).takeWhile notNameEnd).length := by
    by_cases hh : ((l.drop 5).drop ((l.drop 5).takeWhile notNameEnd).length).head? = some ','
    · rw [if_pos hh] at h1
      exact List.tail_subset _ h1
    · rw [if_neg hh] at h1
      exact h1
  exact List.drop_subset 5 l (List.drop_subset _ _ h2)

/-- The greeting pass introduces no carriage return. -/
lemma formatGreeting_no_cr {l : List Char} (h : '\r' ∉ l) :
    '\r' ∉ formatGreeting l := by
  unfold formatGreeting
  by_cases hm : greetMatch l
  · rw [if_pos hm]
    intro hmem
    simp only [List.mem_append, List.mem_cons] at hmem
    rcases hmem with (hd | hn) | hc | hc | hc | hr3
    · exact absurd hd (by decide)
    · exact h ((List.drop_subset 5 l)
        ((List.takeWhile_prefix notNameEnd).subset hn))
    · cases hc
    · cases hc
    · cases hc
    · exact h (greet_tail_subset l hr3)
  · rw [if_neg hm]
    exact h

/-- A matched token is one of the three closing literals. -/
lemma tokenAt_cases {l tk : List Char} (h : tokenAt l = some tk) :
    tk = tok1 ∨ tk = tok2 ∨ tk = tok3 := by
  unfold tokenAt at h
  split at h
  · exact Or.inl (Option.some_injective _ h).symm
  · split at h
    · exact Or.inr (Or.inl (Option.some_injective _ h).symm)
    · split at h
      · exact Or.inr (Or.inr (Option.some_injective _ h).symm)
      · cases h

/-- The captured signature group uses only characters after the token. -/
lemma sigGroup_subset {rest g2 : List Char} (h : sigGroup rest = some g2) :
    g2 ⊆ rest := by
  simp only [sigGroup] at h
  by_cases h1 : rest.isEmpty
  · rw [if_pos h1] at h
    cases h
  · rw [if_neg h1] at h
    by_cases h2 : rest.all inNameClass
    · rw [if_pos h2] at h
      have hg := Option.some_injective _ h
      rw [← hg]
      by_cases h3 : (rest.dropWhile isSpc).isEmpty
      · rw [if_pos h3]
        intro x hx
        rw [List.mem_singleton.mp hx]
        have hne : rest ≠ [] := by simpa [List.isEmpty_iff] using h1
        rw [List.getLastD_eq_getLast?]
        rcases hlast : rest.getLast? with _ | w
        · rw [List.getLast?_eq_none_iff] at hlast
          exact absurd hlast hne
        · simp only [Option.getD_some]
          obtain ⟨h9, hw2⟩ :=
            List.mem_getLast?_eq_getLast (show w ∈ rest.getLast? from hlast)
          rw [hw2]
          exact List.getLast_mem h9
      · rw [if_neg h3]
        exact (List.dropWhile_suffix isSpc).subset
    · rw [if_neg h2] at h
      cases h

/-- A viable match yields a token and a group from the text. -/
lemma viableAt_some {l : List Char} {tk g2 : List Char}
    (h : viableAt l = some (tk, g2)) :
    tokenAt l = some tk ∧ sigGroup (l.drop tk.length) = some g2 := by
  unfold viableAt at h
  rcases htok : tokenAt l with _ | tk2 <;> rw [htok] at h
  · cases h
  · simp only [] at h
    rcases hsig : sigGroup (l.drop tk2.length) with _ | g <;> rw [hsig] at h
    · cases h
    · simp only [] at h
      obtain ⟨h1, h2⟩ := Prod.mk.injEq _ _ _ _ ▸ (Option.some_injective _ h)
      subst h1
      subst h2
      exact ⟨rfl, hsig⟩

/-- The scan's result is a viable match at the reported offset. -/
lemma firstViable_spec :
    ∀ {l : List Char} {t : Nat} {tk g2 : List Char},
      firstViable l = some (t, tk, g2) → viableAt (l.drop t) = some (tk, g2) := by
  intro l
  induction l with
  | nil => intro t tk g2 h; cases h
  | cons c rest ih =>
    intro t tk g2 h
    unfold firstViable at h
    rcases hv : viableAt (c :: rest) with _ | ⟨tk2, g22⟩ <;> rw [hv] at h
    · rcases hr : firstViable rest with _ | ⟨⟨t3, tk3, g23⟩⟩ <;> rw [hr] at h
      · cases h
      · simp only [] at h
        have h0 := Option.some_injective _ h
        injection h0 with ha hb
        injection hb with hb1 hb2
        subst ha
        subst hb1
        subst hb2
        rw [List.drop_succ_cons]
        exact ih hr
    · simp only [] at h
      have h0 := Option.some_injective _ h
      injection h0 with ha hb
      injection hb with hb1 hb2
      subst ha
      subst hb1
      subst hb2
      rw [List.drop_zero]
      exact hv

/-- The closing pass introduces no carriage return. -/
lemma formatClosing_no_cr {l : List Char} (h : '\r' ∉ l) :
    '\r' ∉ formatClosing l := by
  unfold formatClosing
  rcases hv : firstViable l with _ | ⟨⟨t, tk, g2⟩⟩
  · exact h
  · obtain ⟨htok, hsig⟩ := viableAt_some (firstViable_spec hv)
    intro hmem
    simp only [List.mem_append, List.mem_cons] at hmem
    rcases hmem with htake | hn | hn | (hin | hn | hg)
    · exact h (List.take_subset _ l htake)
    · cases hn
    · cases hn
    · have := tokenAt_cases htok
      rcases this with rfl | rfl | rfl <;> revert hin <;> decide
    · cases hn
    · exact h (List.drop_subset t l
        (List.drop_subset tk.length (l.drop t) (sigGroup_subset hsig hg)))

/-- An occurrence further right is still an occurrence. -/
lemma hasClosingToken_cons_of {c : Char} {rest : List Char}
    (h : hasClosingToken rest = true) : hasClosingToken (c :: rest) = true := by
  unfold hasClosingToken
  rw [h, Bool.or_true]

/-- An occurrence survives prepending. -/
lemma hasClosingToken_append (a : List Char) {l : List Char}
    (h : hasClosingToken l = true) : hasClosingToken (a ++ l) = true := by
  induction a with
  | nil => simpa using h
  | cons c a2 ih => exact hasClosingToken_cons_of ih

/-- A token match at the front is an occurrence. -/
lemma hasClosingToken_of_token {l : List Char}
    (h : (tokenAt l).isSome = true) : hasClosingToken l = true := by
  cases l with
  | nil =>
    rw [show tokenAt [] = none from rfl] at h
    cases h
  | cons c rest =>
    unfold hasClosingToken
    rw [h, Bool.true_or]

/-- Each closing literal matches at the front of its own extension. -/
lemma tokenAt_isSome_append {tk : List Char} (b : List Char)
    (h : tk = tok1 ∨ tk = tok2 ∨ tk = tok3) :
    (tokenAt (tk ++ b)).isSome = true := by
  have hpre : tk.isPrefixOf (tk ++ b) = true :=
    List.isPrefixOf_iff_prefix.mpr (List.prefix_append tk b)
  rcases h with rfl | rfl | rfl
  · simp [tokenAt, hpre]
  · by_cases hc : tok1.isPrefixOf (tok2 ++ b) <;> simp [tokenAt, hc, hpre]
  · by_cases hc1 : tok1.isPrefixOf (tok3 ++ b) <;>
      by_cases hc2 : tok2.isPrefixOf (tok3 ++ b) <;> simp [tokenAt, hc1, hc2, hpre]

/-- If no closing token occurs, the scan finds no viable match. -/
lemma firstViable_none {l : List Char} (h : hasClosingToken l = false) :
    firstViable l = none := by
  induction l with
  | nil => rfl
  | cons c rest ih =>
    unfold hasClosingToken at h
    rw [Bool.or_eq_false_iff] at h
    have htok : tokenAt (c :: rest) = none :=
      Option.not_isSome_iff_eq_none.mp (by simp [h.1])
    have hv : viableAt (c :: rest) = none := by
      unfold viableAt
      rw [htok]
    unfold firstViable
    rw [hv, ih h.2]

/-- Without a closing token the closing pass is the identity. -/
lemma formatClosing_noop {l : List Char} (h : hasClosingToken l = false) :
    formatClosing l = l := by
  unfold formatClosing
  rw [firstViable_none h]

/-- The closing pass either does nothing or leaves a closing token in its
output. -/
lemma formatClosing_eq_or_token (l : List Char) :
    formatClosing l = l ∨ hasClosingToken (formatClosing l) = true := by
  unfold formatClosing
  rcases hv : firstViable l with _ | ⟨⟨t, tk, g2⟩⟩
  · exact Or.inl rfl
  · right
    obtain ⟨htok, _⟩ := viableAt_some (firstViable_spec hv)
    apply hasClosingToken_append
    apply hasClosingToken_cons_of
    apply hasClosingToken_cons_of
    exact hasClosingToken_of_token (tokenAt_isSome_append _ (tokenAt_cases htok))

/-- The paragraph pass leaves no carriage return when its input had none. -/
lemma formatTextParagraphs_no_cr {l : List Char} (h : '\r' ∉ l) :
    '\r' ∉ formatTextParagraphs l := by
  intro hmem
  rcases formatTextParagraphs_chars hmem with h2 | h2 | h2
  · exact h h2
  · cases h2
  · cases h2

/-- Without a greeting match the greeting pass is the identity. -/
lemma formatGreeting_noop {l : List Char} (h : greetMatch l = false) :
    formatGreeting l = l := by
  unfold formatGreeting
  rw [h]
  simp

/-- C7 (counterexample): `formatLetter` is not idempotent.  On
`"Dear\nJohn"` the first pass merges the two lines into the paragraph
`"Dear John"`; the second pass then treats it as a greeting and rewrites it
to `"Dear John,"`. -/
theorem format_letter_not_idempotent :
    format_business_letter (format_business_letter "Dear\nJohn") ≠
      format_business_letter "Dear\nJohn" := by
  decide

/-- C7 (amended): `formatLetter` is idempotent on its own output whenever
that output does not re-trigger the greeting rule (it does not start with
`Dear ` plus a name character) and contains no closing token; the
counterexample shows the greeting rule can re-fire on merged paragraphs,
and the closing rule can likewise re-fire, so idempotence fails in
general. -/
theorem format_letter_conditionally_idempotent (s : String)
    (h1 : greetMatch (formatBusinessLetterL s.data) = false)
    (h2 : hasClosingToken (formatBusinessLetterL s.data) = false) :
    format_business_letter (format_business_letter s) =
      format_business_letter s := by
  have hycr : '\r' ∉ formatBusinessLetterL s.data :=
    formatClosing_no_cr (formatTextParagraphs_no_cr
      (formatGreeting_no_cr (normalizeBreaks_no_cr s.data)))
  have hPy : formatTextParagraphs (formatBusinessLetterL s.data) =
      formatBusinessLetterL s.data := by
    rcases formatClosing_eq_or_token
        (formatTextParagraphs (formatGreeting (normalizeBreaks s.data))) with
      h | h
    · have hX : formatBusinessLetterL s.data =
          formatTextParagraphs (formatGreeting (normalizeBreaks s.data)) := h
      rw [hX, formatTextParagraphs_idem]
    · exact absurd h (by
        rw [show formatClosing (formatTextParagraphs
          (formatGreeting (normalizeBreaks s.data))) =
            formatBusinessLetterL s.data from rfl, h2]
        exact Bool.false_ne_true)
  have hfix : formatBusinessLetterL (formatBusinessLetterL s.data) =
      formatBusinessLetterL s.data := by
    have hstep : formatBusinessLetterL (formatBusinessLetterL s.data) =
        formatClosing (formatTextParagraphs (formatGreeting
          (normalizeBreaks (formatBusinessLetterL s.data)))) := rfl
    rw [hstep, normalizeBreaks_of_no_cr hycr, formatGreeting_noop h1, hPy,
      formatClosing_noop h2]
  show String.mk (formatBusinessLetterL
      (String.mk (formatBusinessLetterL s.data)).data) =
    String.mk (formatBusinessLetterL s.data)
  rw [show (String.mk (formatBusinessLetterL s.data)).data =
    formatBusinessLetterL s.data from rfl, hfix]

/-- C7 (witness): a plain two-line body with no greeting and no closing
token is a fixed point of the formatter. -/
theorem format_letter_conditionally_idempotent_witness :
    greetMatch (formatBusinessLetterL ("hello\nworld").data) = false ∧
      hasClosingToken (formatBusinessLetterL ("hello\nworld").data) = false ∧
      format_business_letter (format_business_letter "hello\nworld") =
        format_business_letter "hello\nworld" :=
  ⟨by decide, by decide,
    format_letter_conditionally_idempotent "hello\nworld" (by decide) (by decide)⟩

end Agent
